import Mathlib

/-!
Verification development for the scram fault-tree analysis core.

The development shallowly embeds:
- the indexed Boolean graph gate (IGate) and its argument-addition
  contract (duplicate handling, complement collapse, constant folding);
- the BDD Apply algorithm on vertices with attributed (complemented) edges;
- the cut-set post-processing of fault_tree_analysis.cc
  (CalculateProbability, GetOrder, FaultTreeAnalysis::Convert).

Numeric probabilities (C++ double) are modelled as rationals.
-/

namespace scram

/-- Gate operators of the Boolean graph (the Operator enum of the source:
kAndGate, kOrGate, kAtleastGate, kXorGate, kNotGate, kNandGate, kNorGate,
kNullGate). -/
inductive Operator where
  | and
  | or
  | atleast
  | xor
  | nand
  | nor
  | nullT
  | notT
deriving DecidableEq, Repr

/-- Gate states (kNormalState, kNullState = constant false,
kUnityState = constant true). -/
inductive State where
  | normal
  | nullS
  | unityS
deriving DecidableEq, Repr

/-- Modelled from the spec: the indexed gate (I-gate) of the Boolean graph
(boolean_graph.h / boolean_graph.cc are not under src/; the shape follows
the data model of the spec and the accessors exercised by
tests/boolean_graph_tests.cc).  Fields: connective type, state, ATLEAST
vote number, the gate's own index, the ordered set of signed argument
indices, and the bookkeeping containers of variable arguments, gate
arguments (with the sub-gate stored inline) and constant arguments. -/
inductive IGate where
  | mk (type : Operator) (state : State) (voteNumber : Nat) (index : Nat)
       (args : List Int) (variableArgs : List Int)
       (gateArgs : List (Int × IGate)) (constantArgs : List Int)

def IGate.type : IGate → Operator
  | .mk t _ _ _ _ _ _ _ => t

def IGate.state : IGate → State
  | .mk _ s _ _ _ _ _ _ => s

def IGate.voteNumber : IGate → Nat
  | .mk _ _ v _ _ _ _ _ => v

def IGate.index : IGate → Nat
  | .mk _ _ _ ix _ _ _ _ => ix

def IGate.args : IGate → List Int
  | .mk _ _ _ _ a _ _ _ => a

def IGate.variableArgs : IGate → List Int
  | .mk _ _ _ _ _ va _ _ => va

def IGate.gateArgs : IGate → List (Int × IGate)
  | .mk _ _ _ _ _ _ ga _ => ga

def IGate.constantArgs : IGate → List Int
  | .mk _ _ _ _ _ _ _ ca => ca

/-- EraseArg: removes the argument with the given signed index from the
argument set and from every bookkeeping container (set semantics:
every occurrence of the index is removed). -/
def IGate.eraseArg : IGate → Int → IGate
  | .mk t s v ix args vars gates consts, j =>
    .mk t s v ix (args.filter (fun a => a ≠ j)) (vars.filter (fun a => a ≠ j))
      (gates.filter (fun p => p.1 ≠ j)) (consts.filter (fun a => a ≠ j))

/-- Nullify: the gate becomes constant false; all argument containers are
emptied (EraseAllArgs). -/
def IGate.nullify : IGate → IGate
  | .mk t _ v ix _ _ _ _ => .mk t .nullS v ix [] [] [] []

/-- MakeUnity: the gate becomes constant true; all argument containers are
emptied (EraseAllArgs). -/
def IGate.makeUnity : IGate → IGate
  | .mk t _ v ix _ _ _ _ => .mk t .unityS v ix [] [] [] []

/-- Degenerate ATLEAST gates are retyped: a single remaining argument gives
a pass-through NULL gate, vote number 1 gives OR, vote number equal to the
number of arguments gives AND (behaviour fixed by
tests/boolean_graph_tests.cc). -/
def IGate.atleastRetype : IGate → IGate
  | .mk t s v ix args vars gates consts =>
    let t2 :=
      if args.length = 1 then Operator.nullT
      else if v = 1 then Operator.or
      else if v = args.length then Operator.and
      else t
    .mk t2 s v ix args vars gates consts

/-- Clone of an ATLEAST gate without the duplicated literal: the argument
containers are copied with the literal removed, the vote number is set to
the given value, the clone receives a fresh index, and degenerate clones
are retyped. -/
def IGate.cloneAtleast (g : IGate) (x : Int) (j : Nat) (ix : Nat) : IGate :=
  match g.eraseArg x with
  | .mk _ _ _ _ args vars gates consts =>
    IGate.atleastRetype (.mk .atleast .normal j ix args vars gates consts)

/-- Modelled from the spec: duplicate addition of literal x to
ATLEAST(k, [x, y_i]) (IGate::ProcessAtleastArg of the missing
boolean_graph.cc).  Since x is counted twice,
ATLEAST(k, [x, x, y_i]) = x AND ATLEAST(k-2, [y_i]) OR ATLEAST(k, [y_i]);
the vote decrement k-2 is the one fixed by the repository's tests
(DuplicateArgAtleastToOr_TwoClones), where the spec text says k-1.
Special cases fixed by the tests: with exactly two arguments the gate
erases the duplicated literal and becomes a NULL gate; with vote number 2
the gate becomes OR of x and one clone; with vote number equal to the
argument count it becomes AND of x and one clone.  Fresh sub-gates receive
indices next, next+1, next+2. -/
def IGate.processAtleastArg : IGate → Int → Nat → IGate
  | .mk t s v ix args vars gates consts, x, next =>
    let g := IGate.mk t s v ix args vars gates consts
    if args.length = 2 then
      match g.eraseArg x with
      | .mk _ s2 v2 ix2 args2 vars2 gates2 consts2 =>
        .mk .nullT s2 v2 ix2 args2 vars2 gates2 consts2
    else if v = 2 then
      let clone := g.cloneAtleast x 2 next
      .mk .or s v ix [x, (next : Int)] [x] [((next : Int), clone)] []
    else if v = args.length then
      let clone := g.cloneAtleast x (v - 2) next
      .mk .and s v ix [x, (next : Int)] [x] [((next : Int), clone)] []
    else
      let cloneOne := g.cloneAtleast x v next
      let cloneTwo := g.cloneAtleast x (v - 2) (next + 1)
      let andGate := IGate.mk .and .normal 0 (next + 2)
        [x, ((next : Int) + 1)] [x] [(((next : Int) + 1), cloneTwo)] []
      .mk .or s v ix [((next : Int) + 2), (next : Int)] []
        [(((next : Int) + 2), andGate), ((next : Int), cloneOne)] []

/-- Modelled from the spec: duplicate (same-sign) argument handling
(IGate::ProcessDuplicateArg): AND/OR/NAND/NOR ignore the duplicate, XOR
collapses to constant false, ATLEAST rewrites per processAtleastArg. -/
def IGate.processDuplicateArg : IGate → Int → Nat → IGate
  | g, x, next =>
    match g.type with
    | .xor => g.nullify
    | .atleast => g.processAtleastArg x next
    | _ => g

/-- Modelled from the spec: opposite-sign argument handling
(IGate::ProcessComplementArg): x AND NOT x is false, so AND and NOR
collapse to constant false; OR, NAND and XOR collapse to constant true;
ATLEAST drops both literals (the stored literal -x is erased and the new
one is not added), decrements the vote number, and is retyped if
degenerate. -/
def IGate.processComplementArg : IGate → Int → IGate
  | g, x =>
    match g.type with
    | .and | .nor => g.nullify
    | .or | .nand | .xor => g.makeUnity
    | .atleast =>
      match g.eraseArg (-x) with
      | .mk t s v ix args vars gates consts =>
        IGate.atleastRetype (.mk t s (v - 1) ix args vars gates consts)
    | _ => g

/-- Modelled from the spec: IGate::AddArg for a variable argument.  A gate
in a constant state ignores additions; an existing same-sign index goes to
duplicate processing, an existing opposite-sign index to complement
processing; otherwise the argument is registered as a new variable
argument.  The parameter next is the next free node index for sub-gates
materialized by rewrites. -/
def IGate.addArg (g : IGate) (i : Int) (next : Nat) : IGate :=
  if g.state ≠ State.normal then g
  else if i ∈ g.args then g.processDuplicateArg i next
  else if -i ∈ g.args then g.processComplementArg i
  else
    match g with
    | .mk t s v ix args vars gates consts =>
      .mk t s v ix (i :: args) (i :: vars) gates consts

/-- Retyping performed when a multi-argument gate is left with a single
argument after a constant argument is removed: AND/OR become the
pass-through NULL gate, NAND/NOR become NOT. -/
def IGate.joinSingleArg : IGate → IGate
  | .mk t s v ix args vars gates consts =>
    let t2 :=
      if args.length = 1 then
        match t with
        | .and | .or => Operator.nullT
        | .nand | .nor => Operator.notT
        | u => u
      else t
    .mk t2 s v ix args vars gates consts

/-- Modelled from the spec: IGate::ProcessConstantArg - substitute the
truth value of the literal with stored signed index i into the connective;
the gate collapses to a constant state or the literal is erased with the
symmetric per-connective adjustments (behaviour fixed by the
TEST_CONSTANT_ARG tests). -/
def IGate.processConstantArg (g : IGate) (i : Int) (val : Bool) : IGate :=
  let v := if i < 0 then !val else val
  match g.type with
  | .nullT => if v then g.makeUnity else g.nullify
  | .notT => if v then g.nullify else g.makeUnity
  | .or => if v then g.makeUnity else (g.eraseArg i).joinSingleArg
  | .and => if v then (g.eraseArg i).joinSingleArg else g.nullify
  | .nor => if v then g.nullify else (g.eraseArg i).joinSingleArg
  | .nand => if v then (g.eraseArg i).joinSingleArg else g.makeUnity
  | .xor =>
    match g.eraseArg i with
    | .mk _ s2 v2 ix2 args2 vars2 gates2 consts2 =>
      .mk (if v then Operator.notT else Operator.nullT) s2 v2 ix2
        args2 vars2 gates2 consts2
  | .atleast =>
    match g.eraseArg i with
    | .mk t2 s2 v2 ix2 args2 vars2 gates2 consts2 =>
      IGate.atleastRetype
        (.mk t2 s2 (if v then v2 - 1 else v2) ix2 args2 vars2 gates2 consts2)

/-- Evaluation of a signed literal under an assignment of truth values to
variable indices (negative index = complemented variable).  Semantic layer
used to check Boolean equivalence of gate rewrites. -/
def evalLit (f : Nat → Bool) (i : Int) : Bool :=
  if i < 0 then !(f i.natAbs) else f i.natAbs

/-- Fuel-bounded evaluation of an I-gate under an assignment: constant
states evaluate to their constant, a normal gate applies its connective to
the values of its variable and gate arguments.  Semantic layer for the
rewrite-correctness theorems. -/
def IGate.evalFuel (f : Nat → Bool) : Nat → IGate → Bool
  | 0, _ => false
  | fuel + 1, .mk t s v _ _ vars gates _ =>
    match s with
    | .nullS => false
    | .unityS => true
    | .normal =>
      let xs := vars.map (evalLit f) ++
        gates.map (fun p => IGate.evalFuel f fuel p.2)
      let cnt := xs.count true
      match t with
      | .and => decide (cnt = xs.length)
      | .or => decide (0 < cnt)
      | .nullT => decide (0 < cnt)
      | .notT => decide (cnt = 0)
      | .nand => decide (cnt < xs.length)
      | .nor => decide (cnt = 0)
      | .xor => decide (cnt % 2 = 1)
      | .atleast => decide (v ≤ cnt)

/-- The bookkeeping invariant of an I-gate: the argument set is exactly
the variable arguments, the gate arguments and the constant arguments
together (as an unordered collection). -/
def IGate.wellFormed : IGate → Prop
  | .mk _ _ _ _ args vars gates consts =>
    args.Perm (vars ++ gates.map Prod.fst ++ consts)

/-- The argument-count equation of the spec: the number of arguments is
the sum of the numbers of variable, gate and constant arguments. -/
def IGate.argCountEq (g : IGate) : Prop :=
  g.args.length =
    g.variableArgs.length + g.gateArgs.length + g.constantArgs.length

/-! ### BDD vertices and the Apply algorithm (bdd.h; the algorithm of
bdd.cc is not under src/ and is modelled from the spec). -/

/-- A BDD vertex: the single terminal One, or an if-then-else vertex over
a variable with a complement attribute on each outgoing edge.  The data
structure of the source stores a complement attribute only for the low
edge; the model carries one per edge so that the canonical-form invariant
(the high edge is never complemented) is a provable property of the Apply
algorithm rather than a consequence of the representation. -/
inductive Vertex where
  | one : Vertex
  | ite (varIndex : Nat) (chigh : Bool) (high : Vertex)
        (clow : Bool) (low : Vertex) : Vertex
deriving DecidableEq, Repr

namespace Bdd

/-- Bdd::Function - holder of computation resultant functions: an
interpretation flag (complement) and the root vertex of the graph. -/
structure Function where
  complement : Bool
  vertex : Vertex
deriving DecidableEq, Repr

/-- Boolean complement of a function (flip the interpretation flag). -/
def negateFn (f : Function) : Function :=
  ⟨!f.complement, f.vertex⟩

/-- The BDD function of a single positive variable: high edge to the One
terminal, low edge to the complemented One terminal. -/
def mkVar (index : Nat) : Function :=
  ⟨false, .ite index false .one true .one⟩

/-- Modelled from the spec: terminal cases of Apply where the first
argument is the terminal One interpreted through its complement flag
(true gives the constant false function):
apply(AND, T, g) = g, apply(AND, F, g) = F,
apply(OR, T, g) = T, apply(OR, F, g) = g. -/
def applyTermFirst (type : Operator) (c1 c2 : Bool) (w : Vertex) : Function :=
  match type with
  | .and => if c1 then ⟨true, .one⟩ else ⟨c2, w⟩
  | .or => if c1 then ⟨c2, w⟩ else ⟨false, .one⟩
  | _ => ⟨true, .one⟩

/-- Modelled from the spec: the constant produced by applying an operator
to a function and its own complement: AND gives false, OR gives true. -/
def constFn (type : Operator) : Function :=
  match type with
  | .and => ⟨true, .one⟩
  | _ => ⟨false, .one⟩

/-- Modelled from the spec: reduction and complement normalization when an
ITE vertex is about to be created.  Equal cofactors collapse (reduction);
a complemented high cofactor flips the pair - both children are negated
and the outer complement is recorded - so that the high edge of every
created vertex is not complemented. -/
def mkIte (v : Nat) (h l : Function) : Function :=
  if h = l then h
  else if h.complement then
    ⟨true, .ite v false h.vertex (!l.complement) l.vertex⟩
  else
    ⟨false, .ite v false h.vertex l.complement l.vertex⟩

/-- Modelled from the spec: Bdd::Apply - Shannon recursion with
complement-edge normalization.  Terminal cases first, then the special
case of identical argument vertices (equal functions return the function,
complementary functions return the operator's constant), then the
recursion splitting on the variable of smallest order among the two
roots.  Structural equality of vertices models pointer equality under
hash-consing. -/
def Apply (type : Operator) : Vertex → Vertex → Bool → Bool → Function
  | .one, w, c1, c2 => applyTermFirst type c1 c2 w
  | .ite x ch1 vh1 cl1 vl1, .one, c1, c2 =>
    applyTermFirst type c2 c1 (.ite x ch1 vh1 cl1 vl1)
  | .ite x ch1 vh1 cl1 vl1, .ite y ch2 vh2 cl2 vl2, c1, c2 =>
    if Vertex.ite x ch1 vh1 cl1 vl1 = Vertex.ite y ch2 vh2 cl2 vl2 then
      if c1 = c2 then ⟨c1, .ite x ch1 vh1 cl1 vl1⟩ else constFn type
    else if x < y then
      mkIte x (Apply type vh1 (.ite y ch2 vh2 cl2 vl2) (c1 ^^ ch1) c2)
        (Apply type vl1 (.ite y ch2 vh2 cl2 vl2) (c1 ^^ cl1) c2)
    else if y < x then
      mkIte y (Apply type (.ite x ch1 vh1 cl1 vl1) vh2 c1 (c2 ^^ ch2))
        (Apply type (.ite x ch1 vh1 cl1 vl1) vl2 c1 (c2 ^^ cl2))
    else
      mkIte x (Apply type vh1 vh2 (c1 ^^ ch1) (c2 ^^ ch2))
        (Apply type vl1 vl2 (c1 ^^ cl1) (c2 ^^ cl2))
termination_by v1 v2 _ _ => sizeOf v1 + sizeOf v2

/-- Apply on functions (complement flags packed with the vertices). -/
def applyFn (type : Operator) (f g : Function) : Function :=
  Apply type f.vertex g.vertex f.complement g.complement

/-- The ROBDD canonical-form invariant: in every reachable ITE vertex the
complement attribute resides on the low edge only; the high edge is never
complemented. -/
def noCompHigh : Vertex → Bool
  | .one => true
  | .ite _ ch vh _ vl => !ch && noCompHigh vh && noCompHigh vl

end Bdd

/-! ### Cut-set post-processing (fault_tree_analysis.cc). -/

/-- A basic event: identity index and failure probability (the C++ double
is modelled as a rational). -/
structure BasicEvent where
  id : Nat
  p : ℚ
deriving DecidableEq, Repr

/-- A literal of a cut set: a basic event, possibly complemented. -/
structure Literal where
  complement : Bool
  event : BasicEvent
deriving DecidableEq, Repr

/-- A cut set: a collection of literals. -/
abbrev CutSet := List Literal

/-- CalculateProbability - the probability of a cut set: the product over
its literals of the literal's probability, using 1 - p for a complemented
literal; the empty product is 1 (fault_tree_analysis.cc). -/
def CalculateProbability (cutSet : CutSet) : ℚ :=
  cutSet.foldl
    (fun p l => p * (if l.complement then 1 - l.event.p else l.event.p)) 1

/-- Modelled from the spec: the reported sum of the minimal-cut-set
probabilities (the rare-event approximation); the accumulation code is
not under src/. -/
def sumMcsProbability (cutSets : List CutSet) : ℚ :=
  (cutSets.map CalculateProbability).sum

/-- GetOrder - the order of a cut set: 1 for the empty (Unity) cut set,
the size otherwise (fault_tree_analysis.cc). -/
def GetOrder (cutSet : CutSet) : Nat :=
  if cutSet.isEmpty then 1 else cutSet.length

/-- Modelled from the spec: the maximum order over the reported minimal
cut sets; the accumulation code is not under src/. -/
def maxOrder (cutSets : List CutSet) : Nat :=
  cutSets.foldl (fun m cs => max m (GetOrder cs)) 0

/-- Warning appended by FaultTreeAnalysis::Convert when the set of indexed
minimal cut sets is empty. -/
def nullWarningText : String := " The top event is NULL. Success is guaranteed."

/-- Warning appended by FaultTreeAnalysis::Convert when the indexed
minimal cut sets consist of a single empty set. -/
def unityWarningText : String := " The top event is UNITY. Failure is guaranteed."

/-- Result of FaultTreeAnalysis::Convert: the warnings accumulated so far,
the converted cut sets, and the basic events occurring in them (each event
collected once, at its first occurrence). -/
structure ConvertResult where
  warnings : List String
  cutSets : List CutSet
  cutSetEvents : List BasicEvent
deriving Repr

/-- FaultTreeAnalysis::Convert (fault_tree_analysis.cc): appends the NULL
warning when the indexed cut-set list is empty, the UNITY warning when it
is a single empty set; converts each indexed cut set to literals over the
graph's basic events (negative index = complemented literal); collects
each distinct basic event once. -/
def Convert (warnings : List String) (iCutSets : List (List Int))
    (graph : Nat → BasicEvent) : ConvertResult :=
  let warnings2 :=
    if iCutSets.isEmpty then warnings ++ [nullWarningText]
    else if iCutSets.length = 1 ∧ (iCutSets.getLastD []).isEmpty then
      warnings ++ [unityWarningText]
    else warnings
  let uniq := iCutSets.foldl
    (fun acc mcs => mcs.foldl
      (fun acc2 index =>
        if index.natAbs ∈ acc2.1 then acc2
        else (acc2.1 ++ [index.natAbs], acc2.2 ++ [graph index.natAbs]))
      acc)
    (([] : List Nat), ([] : List BasicEvent))
  { warnings := warnings2
    cutSets := iCutSets.map (fun mcs => mcs.map (fun index =>
      ⟨decide (index < 0), graph index.natAbs⟩))
    cutSetEvents := uniq.2 }

/-- Modelled from the spec: truncation during analysis - minimal cut sets
whose order exceeds the configured limit are silently discarded before
they are delivered to Convert (the generating ZBDD code is not under
src/). -/
def truncateMcs (limitOrder : Nat) (mcs : List (List Int)) : List (List Int) :=
  mcs.filter (fun cs => cs.length ≤ limitOrder)

/-- The per-cut-set assertion of FaultTreeAnalysis::Convert: every
delivered cut set has at most limit_order literals. -/
def convertAssertion (limitOrder : Nat) (iCutSets : List (List Int)) : Prop :=
  ∀ cs ∈ iCutSets, cs.length ≤ limitOrder

/-! ## Theorems about the BDD Apply algorithm -/

namespace Bdd

theorem apply_same_fn (t : Operator) (v : Vertex) (c : Bool)
    (ht : t = .and ∨ t = .or) : Apply t v v c c = ⟨c, v⟩ := by
  rcases ht with h | h <;> subst h <;> cases v <;> cases c <;>
    simp [Apply, applyTermFirst]

theorem apply_compl_and (v : Vertex) (c : Bool) :
    Apply .and v v c (!c) = ⟨true, .one⟩ := by
  cases v <;> cases c <;> simp [Apply, applyTermFirst, constFn]

theorem apply_compl_or (v : Vertex) (c : Bool) :
    Apply .or v v c (!c) = ⟨false, .one⟩ := by
  cases v <;> cases c <;> simp [Apply, applyTermFirst, constFn]

theorem apply_comm (t : Operator) (v1 v2 : Vertex) (c1 c2 : Bool) :
    Apply t v1 v2 c1 c2 = Apply t v2 v1 c2 c1 := by
  induction v1, v2, c1, c2 using Apply.induct t with
  | case1 w c1 c2 =>
    cases w with
    | one => cases t <;> cases c1 <;> cases c2 <;> simp [Apply, applyTermFirst]
    | ite y ch2 vh2 cl2 vl2 => simp [Apply]
  | case2 x ch1 vh1 cl1 vl1 c1 c2 => simp [Apply]
  | case3 x ch1 vh1 cl1 vl1 y ch2 vh2 cl2 vl2 c2 h =>
    rw [h]
  | case4 x ch1 vh1 cl1 vl1 y ch2 vh2 cl2 vl2 c1 c2 h hne =>
    rw [h]
    simp [Apply, hne, Ne.symm hne]
  | case5 x ch1 vh1 cl1 vl1 y ch2 vh2 cl2 vl2 c1 c2 h hlt ih1 ih2 =>
    have h2 : ¬(Vertex.ite y ch2 vh2 cl2 vl2 = Vertex.ite x ch1 vh1 cl1 vl1) :=
      fun hh => h hh.symm
    have hnlt : ¬ y < x := Nat.lt_asymm hlt
    rw [Apply, Apply]
    simp [h, h2, hlt, hnlt, ih1, ih2]
  | case6 x ch1 vh1 cl1 vl1 y ch2 vh2 cl2 vl2 c1 c2 h hnlt hlt ih1 ih2 =>
    have h2 : ¬(Vertex.ite y ch2 vh2 cl2 vl2 = Vertex.ite x ch1 vh1 cl1 vl1) :=
      fun hh => h hh.symm
    rw [Apply, Apply]
    simp [h, h2, hlt, hnlt, ih1, ih2]
  | case7 x ch1 vh1 cl1 vl1 y ch2 vh2 cl2 vl2 c1 c2 h hnlt1 hnlt2 ih1 ih2 =>
    have h2 : ¬(Vertex.ite y ch2 vh2 cl2 vl2 = Vertex.ite x ch1 vh1 cl1 vl1) :=
      fun hh => h hh.symm
    have hxy : x = y :=
      Nat.le_antisymm (Nat.le_of_not_lt hnlt2) (Nat.le_of_not_lt hnlt1)
    subst hxy
    rw [Apply, Apply]
    simp [h, h2, hnlt1, ih1, ih2]

theorem noCompHigh_mkIte (v : Nat) (h l : Function)
    (hh : noCompHigh h.vertex = true) (hl : noCompHigh l.vertex = true) :
    noCompHigh (mkIte v h l).vertex = true := by
  unfold mkIte
  split
  · exact hh
  · split <;> simp [noCompHigh, hh, hl]

theorem apply_noCompHigh (t : Operator) (v1 v2 : Vertex) (c1 c2 : Bool)
    (h1 : noCompHigh v1 = true) (h2 : noCompHigh v2 = true) :
    noCompHigh (Apply t v1 v2 c1 c2).vertex = true := by
  induction v1, v2, c1, c2 using Apply.induct t with
  | case1 w c1 c2 =>
    cases t <;> cases c1 <;> simp_all [Apply, applyTermFirst, noCompHigh]
  | case2 x ch1 vh1 cl1 vl1 c1 c2 =>
    cases t <;> cases c2 <;> simp_all [Apply, applyTermFirst, noCompHigh]
  | case3 x ch1 vh1 cl1 vl1 y ch2 vh2 cl2 vl2 c2 h =>
    simp_all [Apply, noCompHigh]
  | case4 x ch1 vh1 cl1 vl1 y ch2 vh2 cl2 vl2 c1 c2 h hne =>
    cases t <;> simp_all [Apply, constFn, noCompHigh]
  | case5 x ch1 vh1 cl1 vl1 y ch2 vh2 cl2 vl2 c1 c2 h hlt ih1 ih2 =>
    simp only [noCompHigh, Bool.and_eq_true, Bool.not_eq_true'] at h1
    rw [Apply]
    simp only [h, hlt, if_neg, if_pos, if_false]
    exact noCompHigh_mkIte _ _ _ (ih1 h1.1.2 h2) (ih2 h1.2 h2)
  | case6 x ch1 vh1 cl1 vl1 y ch2 vh2 cl2 vl2 c1 c2 h hnlt hlt ih1 ih2 =>
    simp only [noCompHigh, Bool.and_eq_true, Bool.not_eq_true'] at h2
    rw [Apply]
    simp only [h, hnlt, hlt, if_neg, if_pos, if_false]
    exact noCompHigh_mkIte _ _ _ (ih1 h1 h2.1.2) (ih2 h1 h2.2)
  | case7 x ch1 vh1 cl1 vl1 y ch2 vh2 cl2 vl2 c1 c2 h hnlt1 hnlt2 ih1 ih2 =>
    simp only [noCompHigh, Bool.and_eq_true, Bool.not_eq_true'] at h1 h2
    rw [Apply]
    simp only [h, hnlt1, hnlt2, if_neg, if_pos, if_false]
    exact noCompHigh_mkIte _ _ _ (ih1 h1.1.2 h2.1.2) (ih2 h1.2 h2.2)

end Bdd

/-- C5: in every ITE vertex of a BDD function built by Apply, the
complement attribute resides on the low edge only - the high edge is
never complemented.  The invariant holds for the base variable functions
and is maintained by every Apply operation (including those building the
root and module functions). -/
theorem claim_C5 (t : Operator) (v1 v2 : Vertex) (c1 c2 : Bool) (x : Nat)
    (h1 : Bdd.noCompHigh v1 = true) (h2 : Bdd.noCompHigh v2 = true) :
    Bdd.noCompHigh (Bdd.Apply t v1 v2 c1 c2).vertex = true ∧
    Bdd.noCompHigh (Bdd.mkVar x).vertex = true :=
  ⟨Bdd.apply_noCompHigh t v1 v2 c1 c2 h1 h2, rfl⟩

theorem claim_C5_witness :
    Bdd.noCompHigh
      (Bdd.Apply .and (Bdd.mkVar 1).vertex (Bdd.mkVar 2).vertex
        false false).vertex = true ∧
    Bdd.noCompHigh (Bdd.mkVar 3).vertex = true :=
  claim_C5 .and (Bdd.mkVar 1).vertex (Bdd.mkVar 2).vertex false false 3
    (by decide) (by decide)

/-- C7: for AND and OR, Apply of a function with itself returns the
function; Apply of a function with its own complement returns the
constant false (AND) or constant true (OR) function; and the result of
Apply does not depend on the order of its two function arguments. -/
theorem claim_C7 (t : Operator) (f g : Bdd.Function)
    (ht : t = .and ∨ t = .or) :
    Bdd.applyFn t f f = f ∧
    Bdd.applyFn .and f (Bdd.negateFn f) = ⟨true, .one⟩ ∧
    Bdd.applyFn .or f (Bdd.negateFn f) = ⟨false, .one⟩ ∧
    Bdd.applyFn t f g = Bdd.applyFn t g f := by
  refine ⟨?_, ?_, ?_, ?_⟩
  · simpa [Bdd.applyFn] using
      Bdd.apply_same_fn t f.vertex f.complement ht
  · exact Bdd.apply_compl_and f.vertex f.complement
  · exact Bdd.apply_compl_or f.vertex f.complement
  · exact Bdd.apply_comm t f.vertex g.vertex f.complement g.complement

theorem claim_C7_witness :
    Bdd.applyFn .or (Bdd.mkVar 1) (Bdd.mkVar 1) = Bdd.mkVar 1 ∧
    Bdd.applyFn .and (Bdd.mkVar 1) (Bdd.negateFn (Bdd.mkVar 1)) =
      ⟨true, .one⟩ ∧
    Bdd.applyFn .or (Bdd.mkVar 1) (Bdd.negateFn (Bdd.mkVar 1)) =
      ⟨false, .one⟩ ∧
    Bdd.applyFn .or (Bdd.mkVar 1) (Bdd.mkVar 2) =
      Bdd.applyFn .or (Bdd.mkVar 2) (Bdd.mkVar 1) :=
  claim_C7 .or (Bdd.mkVar 1) (Bdd.mkVar 2) (Or.inr rfl)

/-! ## Theorems about cut-set post-processing -/

/-- C4: FaultTreeAnalysis::Convert appends the warning that the top event
is NULL (success guaranteed) if and only if the delivered list of indexed
minimal cut sets is empty, and the warning that the top event is UNITY
(failure guaranteed) if and only if that list is exactly one empty cut
set; the reported cut-set collection is then respectively empty or a
single empty set. -/
theorem claim_C4 (w : List String) (ics : List (List Int))
    (graph : Nat → BasicEvent) :
    ((Convert w ics graph).warnings = w ++ [nullWarningText] ↔ ics = []) ∧
    ((Convert w ics graph).warnings = w ++ [unityWarningText] ↔ ics = [[]]) ∧
    (ics = [] → (Convert w ics graph).cutSets = []) ∧
    (ics = [[]] → (Convert w ics graph).cutSets = [[]]) := by
  have hne : nullWarningText ≠ unityWarningText := by decide
  obtain _ | ⟨a, _ | ⟨b, t⟩⟩ := ics
  · simp [Convert, hne]
  · by_cases ha : a = []
    · subst ha
      simp [Convert, hne, Ne.symm hne]
    · simp [Convert, ha]
  · simp [Convert]

theorem claim_C4_witness :
    (Convert [] [] (fun _ => ⟨0, 0⟩)).warnings = [nullWarningText] ∧
    (Convert [] [[]] (fun _ => ⟨0, 0⟩)).cutSets = [[]] :=
  ⟨by simpa using (claim_C4 [] [] (fun _ => ⟨0, 0⟩)).1.mpr rfl,
   (claim_C4 [] [[]] (fun _ => ⟨0, 0⟩)).2.2.2 rfl⟩

/-- C8: every minimal cut set that survives the truncation of the
analysis has at most limit_order literals, so the assertion on cut-set
size in FaultTreeAnalysis::Convert holds on every delivered cut set. -/
theorem claim_C8 (limitOrder : Nat) (mcs : List (List Int)) :
    convertAssertion limitOrder (truncateMcs limitOrder mcs) := by
  intro cs hcs
  simp only [truncateMcs, List.mem_filter, decide_eq_true_eq] at hcs
  exact hcs.2

theorem claim_C8_witness :
    convertAssertion 2 (truncateMcs 2 [[1], [1, 2, 3]]) :=
  claim_C8 2 [[1], [1, 2, 3]]

/-- C9: CalculateProbability of a cut set is the product over its literals
of the literal's probability - p for a positive literal and 1 - p for a
complemented one - with empty product 1; the single minimal cut set of
AND(a, b) with p(a) = 0.1 and p(b) = 0.2 gets probability 0.02, and the
reported sum of cut-set probabilities (rare-event approximation) is the
sum of the per-set products. -/
theorem claim_C9 :
    (∀ cs : CutSet, CalculateProbability cs =
      (cs.map (fun l =>
        if l.complement then 1 - l.event.p else l.event.p)).prod) ∧
    CalculateProbability ([] : CutSet) = 1 ∧
    CalculateProbability
      [⟨false, ⟨1, 1/10⟩⟩, ⟨false, ⟨2, 2/10⟩⟩] = 2/100 ∧
    sumMcsProbability [[⟨false, ⟨1, 1/10⟩⟩, ⟨false, ⟨2, 2/10⟩⟩]] = 2/100 := by
  refine ⟨?_, rfl, ?_, ?_⟩
  · intro cs
    rw [CalculateProbability, List.prod_eq_foldl, List.foldl_map]
  · norm_num [CalculateProbability]
  · norm_num [sumMcsProbability, CalculateProbability]

theorem le_foldl_maxOrder (l : List CutSet) (m : Nat) :
    m ≤ l.foldl (fun a cs => max a (GetOrder cs)) m := by
  induction l generalizing m with
  | nil => exact Nat.le_refl m
  | cons c t ih => exact Nat.le_trans (Nat.le_max_left m (GetOrder c)) (ih _)

/-- C10: GetOrder returns 1 for the empty cut set and the size for every
non-empty cut set; every cut set has order at least 1, and the maximum
reported order is at least 1 whenever any cut set exists. -/
theorem claim_C10 :
    GetOrder ([] : CutSet) = 1 ∧
    (∀ cs : CutSet, cs ≠ [] → GetOrder cs = cs.length) ∧
    (∀ cs : CutSet, 1 ≤ GetOrder cs) ∧
    (∀ cutSets : List CutSet, cutSets ≠ [] → 1 ≤ maxOrder cutSets) := by
  have hge : ∀ cs : CutSet, 1 ≤ GetOrder cs := by
    intro cs
    cases cs with
    | nil => exact Nat.le_refl 1
    | cons a tl => simp [GetOrder]
  refine ⟨rfl, ?_, hge, ?_⟩
  · intro cs h
    cases cs with
    | nil => exact absurd rfl h
    | cons a tl => simp [GetOrder]
  · intro css h
    obtain _ | ⟨c, tl⟩ := css
    · exact absurd rfl h
    · calc 1 ≤ max 0 (GetOrder c) :=
          Nat.le_trans (hge c) (Nat.le_max_right _ _)
        _ ≤ maxOrder (c :: tl) := le_foldl_maxOrder tl _

theorem claim_C10_witness :
    GetOrder [⟨false, ⟨1, 0⟩⟩] = 1 ∧ 1 ≤ maxOrder [[]] :=
  ⟨by simpa using claim_C10.2.1 [⟨false, ⟨1, 0⟩⟩] (by simp),
   claim_C10.2.2.2 [[]] (by simp)⟩

/-! ## Theorems about the I-gate bookkeeping invariant -/

theorem map_fst_filter_ne (j : Int) (l : List (Int × IGate)) :
    (l.filter (fun p => !decide (p.1 = j))).map Prod.fst =
    (l.map Prod.fst).filter (fun a => !decide (a = j)) := by
  induction l with
  | nil => rfl
  | cons a tl ih => by_cases h : a.1 = j <;> simp [List.filter_cons, h, ih]

theorem wf_eraseArg (g : IGate) (j : Int) (h : g.wellFormed) :
    (g.eraseArg j).wellFormed := by
  obtain ⟨t, s, v, ix, args, vars, gates, consts⟩ := g
  simp only [IGate.wellFormed, IGate.eraseArg, ne_eq, decide_not] at h ⊢
  have h2 := h.filter (fun a => !decide (a = j))
  simp only [List.filter_append] at h2
  rw [map_fst_filter_ne]
  exact h2

theorem wf_atleastRetype (g : IGate) (h : g.wellFormed) :
    g.atleastRetype.wellFormed := by
  obtain ⟨t, s, v, ix, args, vars, gates, consts⟩ := g
  simpa [IGate.wellFormed, IGate.atleastRetype] using h

theorem wf_joinSingleArg (g : IGate) (h : g.wellFormed) :
    g.joinSingleArg.wellFormed := by
  obtain ⟨t, s, v, ix, args, vars, gates, consts⟩ := g
  simpa [IGate.wellFormed, IGate.joinSingleArg] using h

theorem wf_nullify (g : IGate) : g.nullify.wellFormed := by
  obtain ⟨t, s, v, ix, args, vars, gates, consts⟩ := g
  simp [IGate.wellFormed, IGate.nullify]

theorem wf_makeUnity (g : IGate) : g.makeUnity.wellFormed := by
  obtain ⟨t, s, v, ix, args, vars, gates, consts⟩ := g
  simp [IGate.wellFormed, IGate.makeUnity]

theorem wf_processAtleastArg (g : IGate) (x : Int) (next : Nat)
    (h : g.wellFormed) : (g.processAtleastArg x next).wellFormed := by
  obtain ⟨t, s, v, ix, args, vars, gates, consts⟩ := g
  have h2 := wf_eraseArg (.mk t s v ix args vars gates consts) x h
  simp only [IGate.processAtleastArg]
  split
  · simp only [IGate.eraseArg, IGate.wellFormed] at h2 ⊢
    exact h2
  · split
    · simp [IGate.wellFormed]
    · split
      · simp [IGate.wellFormed]
      · simp [IGate.wellFormed]

theorem wf_processDuplicateArg (g : IGate) (x : Int) (next : Nat)
    (h : g.wellFormed) : (g.processDuplicateArg x next).wellFormed := by
  obtain ⟨t, s, v, ix, args, vars, gates, consts⟩ := g
  simp only [IGate.processDuplicateArg, IGate.type]
  cases t
  case xor => exact wf_nullify _
  case atleast => exact wf_processAtleastArg _ x next h
  all_goals exact h

theorem wf_processComplementArg (g : IGate) (x : Int)
    (h : g.wellFormed) : (g.processComplementArg x).wellFormed := by
  obtain ⟨t, s, v, ix, args, vars, gates, consts⟩ := g
  have h2 := wf_eraseArg (.mk t s v ix args vars gates consts) (-x) h
  simp only [IGate.processComplementArg, IGate.type]
  cases t
  case and => exact wf_nullify _
  case nor => exact wf_nullify _
  case or => exact wf_makeUnity _
  case nand => exact wf_makeUnity _
  case xor => exact wf_makeUnity _
  case atleast =>
    simp only [IGate.eraseArg] at h2 ⊢
    apply wf_atleastRetype
    simp only [IGate.wellFormed] at h2 ⊢
    exact h2
  all_goals exact h

theorem wf_addArg (g : IGate) (i : Int) (next : Nat)
    (h : g.wellFormed) : (g.addArg i next).wellFormed := by
  unfold IGate.addArg
  split
  · exact h
  · split
    · exact wf_processDuplicateArg g i next h
    · split
      · exact wf_processComplementArg g i h
      · obtain ⟨t, s, v, ix, args, vars, gates, consts⟩ := g
        simp only [IGate.wellFormed] at h ⊢
        simpa using h.cons i

theorem wf_processConstantArg (g : IGate) (i : Int) (val : Bool)
    (h : g.wellFormed) : (g.processConstantArg i val).wellFormed := by
  obtain ⟨t, s, v, ix, args, vars, gates, consts⟩ := g
  have h2 := wf_eraseArg (.mk t s v ix args vars gates consts) i h
  cases t
  all_goals simp only [IGate.processConstantArg, IGate.type]
  case xor =>
    simp only [IGate.eraseArg] at h2 ⊢
    simp only [IGate.wellFormed] at h2 ⊢
    exact h2
  case atleast =>
    simp only [IGate.eraseArg] at h2 ⊢
    apply wf_atleastRetype
    simp only [IGate.wellFormed] at h2 ⊢
    exact h2
  all_goals repeat' split
  all_goals
    first
      | exact wf_makeUnity _
      | exact wf_nullify _
      | exact wf_joinSingleArg _ h2

theorem wf_argCountEq (g : IGate) (h : g.wellFormed) : g.argCountEq := by
  obtain ⟨t, s, v, ix, args, vars, gates, consts⟩ := g
  simp only [IGate.wellFormed] at h
  have h2 := h.length_eq
  simp only [IGate.argCountEq, IGate.args, IGate.variableArgs, IGate.gateArgs,
    IGate.constantArgs]
  simpa [Nat.add_assoc] using h2

/-- C6: for every I-gate satisfying the bookkeeping invariant, after any
argument addition (including duplicate handling and complement collapse)
or constant-argument processing, the number of arguments equals the sum
of the numbers of variable, gate and constant arguments. -/
theorem claim_C6 (g : IGate) (i : Int) (next : Nat) (val : Bool)
    (h : g.wellFormed) :
    (g.addArg i next).argCountEq ∧ (g.processConstantArg i val).argCountEq :=
  ⟨wf_argCountEq _ (wf_addArg g i next h),
   wf_argCountEq _ (wf_processConstantArg g i val h)⟩

theorem claim_C6_witness :
    ((IGate.mk .and .normal 0 0 [1] [1] [] []).addArg 1 5).argCountEq ∧
    ((IGate.mk .and .normal 0 0 [1] [1] [] []).processConstantArg 1
      true).argCountEq :=
  claim_C6 (IGate.mk .and .normal 0 0 [1] [1] [] []) 1 5 true (by
    simp [IGate.wellFormed])

/-! ## Theorems about duplicate and complement argument addition -/

theorem length_filter_ne_of_nodup (l : List Int) (x : Int)
    (hnd : l.Nodup) (hx : x ∈ l) :
    (l.filter (fun a => a ≠ x)).length = l.length - 1 := by
  induction l with
  | nil => cases hx
  | cons a tl ih =>
    rcases List.nodup_cons.mp hnd with ⟨ha, htl⟩
    by_cases hax : a = x
    · subst hax
      have he : tl.filter (fun b => b ≠ a) = tl :=
        List.filter_eq_self.mpr fun b hb =>
          decide_eq_true (fun hba => ha (hba ▸ hb))
      simp [List.filter_cons]
      exact fun b hb hba => ha (hba ▸ hb)
    · have hxtl : x ∈ tl := by
        rcases List.mem_cons.mp hx with h | h
        · exact absurd h.symm hax
        · exact h
      have hlen : 0 < tl.length := List.length_pos.mpr (List.ne_nil_of_mem hxtl)
      have ihh := ih htl hxtl
      simp only [ne_eq, decide_not] at ihh ⊢
      simp [List.filter_cons, hax]
      omega

example : True := trivial

end scram

namespace scram

theorem addArg_complement (g : IGate) (x : Int) (next : Nat)
    (hs : g.state = .normal) (hx : x ∈ g.args) (hnx : -x ∉ g.args) :
    g.addArg (-x) next = g.processComplementArg (-x) := by
  unfold IGate.addArg
  rw [if_neg (by simp [hs]), if_neg hnx, if_pos (by simpa using hx)]

/-- C2: adding the opposite-sign literal of an existing argument
collapses an AND gate to the Null state and an OR, NAND or XOR gate to
the Unity state, emptying the collapsed gate's argument lists; an ATLEAST
gate instead drops both literals, decrements the argument count and the
vote number by one, stays Normal, and is retyped if degenerate (NULL with
a single remaining argument, OR at vote 1, AND when the vote equals the
argument count). -/
theorem claim_C2 (g : IGate) (x : Int) (next : Nat)
    (hs : g.state = .normal) (hx : x ∈ g.args) (hnx : -x ∉ g.args)
    (hnd : g.args.Nodup) :
    (g.type = .and →
      (g.addArg (-x) next).state = .nullS ∧
      (g.addArg (-x) next).args = [] ∧
      (g.addArg (-x) next).variableArgs = [] ∧
      (g.addArg (-x) next).gateArgs = [] ∧
      (g.addArg (-x) next).constantArgs = []) ∧
    ((g.type = .or ∨ g.type = .nand) →
      (g.addArg (-x) next).state = .unityS ∧
      (g.addArg (-x) next).args = []) ∧
    (g.type = .xor →
      (g.addArg (-x) next).state = .unityS ∧
      (g.addArg (-x) next).args = []) ∧
    (g.type = .atleast →
      (g.addArg (-x) next).state = .normal ∧
      (g.addArg (-x) next).voteNumber = g.voteNumber - 1 ∧
      (g.addArg (-x) next).args = g.args.filter (fun a => a ≠ x) ∧
      (g.addArg (-x) next).args.length = g.args.length - 1 ∧
      x ∉ (g.addArg (-x) next).args ∧
      ((g.addArg (-x) next).args.length = 1 →
        (g.addArg (-x) next).type = .nullT) ∧
      ((g.addArg (-x) next).args.length ≠ 1 → g.voteNumber - 1 = 1 →
        (g.addArg (-x) next).type = .or) ∧
      ((g.addArg (-x) next).args.length ≠ 1 → g.voteNumber - 1 ≠ 1 →
        g.voteNumber - 1 = (g.addArg (-x) next).args.length →
        (g.addArg (-x) next).type = .and)) := by
  rw [addArg_complement g x next hs hx hnx]
  obtain ⟨t, s, v, ix, args, vars, gates, consts⟩ := g
  simp only [IGate.state] at hs
  subst hs
  simp only [IGate.args] at hx hnx hnd
  refine ⟨?_, ?_, ?_, ?_⟩
  · intro ht
    simp only [IGate.type] at ht
    subst ht
    simp [IGate.processComplementArg, IGate.type, IGate.nullify,
      IGate.state, IGate.args, IGate.variableArgs, IGate.gateArgs,
      IGate.constantArgs]
  · intro ht
    rcases ht with ht | ht <;>
      (simp only [IGate.type] at ht; subst ht;
       simp [IGate.processComplementArg, IGate.type, IGate.makeUnity,
         IGate.state, IGate.args])
  · intro ht
    simp only [IGate.type] at ht
    subst ht
    simp [IGate.processComplementArg, IGate.type, IGate.makeUnity,
      IGate.state, IGate.args]
  · intro ht
    simp only [IGate.type] at ht
    subst ht
    have hr : (IGate.mk Operator.atleast State.normal v ix args vars gates
        consts).processComplementArg (-x) =
        IGate.atleastRetype (.mk .atleast .normal (v - 1) ix
          (args.filter (fun a => a ≠ x)) (vars.filter (fun a => a ≠ x))
          (gates.filter (fun p => p.1 ≠ x)) (consts.filter (fun a => a ≠ x))) := by
      simp [IGate.processComplementArg, IGate.type, IGate.eraseArg, neg_neg]
    rw [hr]
    have hlen := length_filter_ne_of_nodup args x hnd hx
    refine ⟨rfl, rfl, rfl, hlen, ?_, ?_, ?_, ?_⟩
    · intro hmem
      have hmem2 : x ∈ args.filter (fun a => a ≠ x) := hmem
      have hmem3 := (List.mem_filter.mp hmem2).2
      simp at hmem3
    · intro h1
      have h1b : (args.filter (fun a => a ≠ x)).length = 1 := h1
      show (if (args.filter (fun a => a ≠ x)).length = 1 then Operator.nullT
        else if v - 1 = 1 then Operator.or
        else if v - 1 = (args.filter (fun a => a ≠ x)).length then Operator.and
        else Operator.atleast) = Operator.nullT
      rw [if_pos h1b]
    · intro h1 h2
      have h1b : ¬ (args.filter (fun a => a ≠ x)).length = 1 := h1
      show (if (args.filter (fun a => a ≠ x)).length = 1 then Operator.nullT
        else if v - 1 = 1 then Operator.or
        else if v - 1 = (args.filter (fun a => a ≠ x)).length then Operator.and
        else Operator.atleast) = Operator.or
      have h2b : v - 1 = 1 := h2
      rw [if_neg h1b, if_pos h2b]
    · intro h1 h2 h3
      have h1b : ¬ (args.filter (fun a => a ≠ x)).length = 1 := h1
      have h3b : v - 1 = (args.filter (fun a => a ≠ x)).length := h3
      show (if (args.filter (fun a => a ≠ x)).length = 1 then Operator.nullT
        else if v - 1 = 1 then Operator.or
        else if v - 1 = (args.filter (fun a => a ≠ x)).length then Operator.and
        else Operator.atleast) = Operator.and
      have h2b : ¬ v - 1 = 1 := h2
      rw [if_neg h1b, if_neg h2b, if_pos h3b]

theorem claim_C2_witness :
    ((IGate.mk .atleast .normal 2 0 [1, 2, 3] [1, 2, 3] [] []).addArg
      (-1) 9).state = .normal ∧
    ((IGate.mk .atleast .normal 2 0 [1, 2, 3] [1, 2, 3] [] []).addArg
      (-1) 9).voteNumber = 1 := by
  have h := claim_C2 (IGate.mk .atleast .normal 2 0 [1, 2, 3] [1, 2, 3] [] [])
    1 9 rfl (by decide) (by decide) (by decide)
  have h4 := h.2.2.2 rfl
  exact ⟨h4.1, h4.2.1⟩

/-- C3: adding a same-sign duplicate of argument a to ATLEAST(2, [a,b,c])
turns the gate into an OR of exactly two arguments - the variable a and an
AND sub-gate over b and c - while the state remains Normal. -/
theorem claim_C3 :
    (IGate.mk .atleast .normal 2 0 [1, 2, 3] [1, 2, 3] [] []).addArg 1 4 =
    IGate.mk .or .normal 2 0 [1, 4] [1]
      [(4, IGate.mk .and .normal 2 4 [2, 3] [2, 3] [] [])] [] := rfl

/-! ## Theorems about the ATLEAST duplicate-argument rewrite -/

theorem count_true_map (g : Int → Bool) (l : List Int) :
    (l.map g).count true = l.countP g := by
  induction l with
  | nil => rfl
  | cons a tl ih =>
    cases hg : g a <;>
      simp [List.count_cons, List.countP_cons, hg, ih]

theorem eval_retype_flat (f : Nat → Bool) (fuel v ix : Nat) (ys : List Int)
    (h1 : ys.length = 1 → v = 1) :
    IGate.evalFuel f (fuel + 1)
      (IGate.atleastRetype (.mk .atleast .normal v ix ys ys [] [])) =
    decide (v ≤ ys.countP (fun i => evalLit f i)) := by
  have hcnt : (ys.map (evalLit f)).count true =
      ys.countP (fun i => evalLit f i) := count_true_map (evalLit f) ys
  show IGate.evalFuel f (fuel + 1)
      (IGate.mk (if ys.length = 1 then Operator.nullT
        else if v = 1 then Operator.or
        else if v = ys.length then Operator.and
        else Operator.atleast) .normal v ix ys ys [] []) =
    decide (v ≤ ys.countP (fun i => evalLit f i))
  split_ifs with hl hv hvl
  · have hv1 := h1 hl
    subst hv1
    simp only [IGate.evalFuel, List.map_nil, List.append_nil, hcnt]
    exact decide_eq_decide.mpr (by omega)
  · subst hv
    simp only [IGate.evalFuel, List.map_nil, List.append_nil, hcnt]
    exact decide_eq_decide.mpr (by omega)
  · have hle := List.countP_le_length (p := fun i => evalLit f i) (l := ys)
    simp only [IGate.evalFuel, List.map_nil, List.append_nil, hcnt,
      List.length_map]
    rw [hvl]
    exact decide_eq_decide.mpr (by omega)
  · simp only [IGate.evalFuel, List.map_nil, List.append_nil, hcnt]

theorem evalFuel_or_two (f : Nat → Bool) (fuel v ix : Nat) (args : List Int)
    (i1 i2 : Int) (g1 g2 : IGate) :
    IGate.evalFuel f (fuel + 1)
      (.mk .or .normal v ix args [] [(i1, g1), (i2, g2)] []) =
    (IGate.evalFuel f fuel g1 || IGate.evalFuel f fuel g2) := by
  cases h1 : IGate.evalFuel f fuel g1 <;>
    cases h2 : IGate.evalFuel f fuel g2 <;>
      simp [IGate.evalFuel, h1, h2, List.count_cons]

theorem evalFuel_and_var_gate (f : Nat → Bool) (fuel v ix : Nat) (x : Int)
    (args : List Int) (i1 : Int) (g1 : IGate) :
    IGate.evalFuel f (fuel + 1)
      (.mk .and .normal v ix args [x] [(i1, g1)] []) =
    (evalLit f x && IGate.evalFuel f fuel g1) := by
  cases hx : evalLit f x <;> cases h1 : IGate.evalFuel f fuel g1 <;>
    simp [IGate.evalFuel, hx, h1, List.count_cons]

theorem addArg_dup_atleast_general (k ix next : Nat) (vars : List Int)
    (x : Int) (hx : x ∈ vars) (hk : 2 < k) (hn : k < vars.length) :
    (IGate.mk .atleast .normal k ix vars vars [] []).addArg x next =
      IGate.mk .or .normal k ix [((next : Int) + 2), (next : Int)] []
        [(((next : Int) + 2), IGate.mk .and .normal 0 (next + 2)
            [x, ((next : Int) + 1)] [x]
            [(((next : Int) + 1), IGate.atleastRetype (.mk .atleast .normal
              (k - 2) (next + 1) (vars.filter (fun a => a ≠ x))
              (vars.filter (fun a => a ≠ x)) [] []))] []),
         ((next : Int), IGate.atleastRetype (.mk .atleast .normal k next
            (vars.filter (fun a => a ≠ x)) (vars.filter (fun a => a ≠ x))
            [] []))] [] := by
  have hlen2 : ¬ vars.length = 2 := by omega
  have hk2 : ¬ k = 2 := by omega
  have hkn : ¬ k = vars.length := by omega
  unfold IGate.addArg
  rw [if_neg (fun hc => hc rfl)]
  rw [if_pos (show x ∈
    (IGate.mk .atleast .normal k ix vars vars [] []).args from hx)]
  show IGate.processAtleastArg
    (IGate.mk .atleast .normal k ix vars vars [] []) x next = _
  simp only [IGate.processAtleastArg]
  rw [if_neg hlen2, if_neg hk2, if_neg hkn]
  rfl

theorem decide_or_eq_decide (p q r : Prop) [Decidable p] [Decidable q]
    [Decidable r] (h : (p ∨ q) ↔ r) : (decide p || decide q) = decide r := by
  by_cases hp : p <;> by_cases hq : q <;> by_cases hr : r <;> simp_all

/-- C1 (amended): adding a same-sign duplicate of x to
ATLEAST(k, [x, y_i]) with 2 < k < n rewrites the gate to
OR( AND(x, ATLEAST(k-2, [y_i])), ATLEAST(k, [y_i]) ), materialized as two
cloned sub-gates sharing the y_i variable set (each clone retyped if
degenerate; the vote decrement is k-2, not the k-1 of the original
claim); for every assignment the rewritten gate evaluates exactly as
at-least-k over the multiset with x counted twice. -/
theorem claim_C1_amended (k ix next : Nat) (vars : List Int) (x : Int)
    (hx : x ∈ vars) (hnd : vars.Nodup) (hk : 2 < k) (hn : k < vars.length) :
    (IGate.mk .atleast .normal k ix vars vars [] []).addArg x next =
      IGate.mk .or .normal k ix [((next : Int) + 2), (next : Int)] []
        [(((next : Int) + 2), IGate.mk .and .normal 0 (next + 2)
            [x, ((next : Int) + 1)] [x]
            [(((next : Int) + 1), IGate.atleastRetype (.mk .atleast .normal
              (k - 2) (next + 1) (vars.filter (fun a => a ≠ x))
              (vars.filter (fun a => a ≠ x)) [] []))] []),
         ((next : Int), IGate.atleastRetype (.mk .atleast .normal k next
            (vars.filter (fun a => a ≠ x)) (vars.filter (fun a => a ≠ x))
            [] []))] [] ∧
    (∀ f : Nat → Bool,
      IGate.evalFuel f 3
        ((IGate.mk .atleast .normal k ix vars vars [] []).addArg x next) =
      decide (k ≤ (if evalLit f x then 2 else 0) +
        (vars.filter (fun a => a ≠ x)).countP (fun i => evalLit f i))) := by
  have hstruct := addArg_dup_atleast_general k ix next vars x hx hk hn
  refine ⟨hstruct, ?_⟩
  intro f
  have hys := length_filter_ne_of_nodup vars x hnd hx
  rw [hstruct]
  show IGate.evalFuel f (2 + 1) _ = _
  rw [evalFuel_or_two]
  rw [show (2 : Nat) = 1 + 1 from rfl]
  rw [evalFuel_and_var_gate]
  rw [eval_retype_flat f 1 k next _ (by intro h1; omega)]
  rw [show (1 : Nat) = 0 + 1 from rfl]
  rw [eval_retype_flat f 0 (k - (1 + 1)) (next + (0 + 1)) _ (by intro h1; omega)]
  cases hv : evalLit f x
  · simp
  · simp only [Bool.true_and, if_true]
    exact decide_or_eq_decide _ _ _ (by omega)

/-- C1 (counterexample): for ATLEAST(3, [a,b,c,d,e]) plus duplicate a the
code does not produce the claimed OR of AND(a, ATLEAST(2, [b,c,d,e])) and
ATLEAST(3, [b,c,d,e]): the produced inner clone has vote number 1 (an OR
gate), and the claimed gate is also semantically wrong - under the
assignment making exactly a and b true, the claimed gate is false while
the gate produced by the code (and the duplicated at-least semantics) is
true. -/
theorem claim_C1_counterexample :
    ((IGate.mk .atleast .normal 3 0 [1, 2, 3, 4, 5]
        [1, 2, 3, 4, 5] [] []).addArg 1 10 ≠
      IGate.mk .or .normal 3 0 [12, 10] []
        [(12, IGate.mk .and .normal 0 12 [1, 11] [1]
          [(11, IGate.mk .atleast .normal 2 11 [2, 3, 4, 5]
            [2, 3, 4, 5] [] [])] []),
         (10, IGate.mk .atleast .normal 3 10 [2, 3, 4, 5]
           [2, 3, 4, 5] [] [])] []) ∧
    IGate.evalFuel (fun n => n == 1 || n == 2) 3
      (IGate.mk .or .normal 3 0 [12, 10] []
        [(12, IGate.mk .and .normal 0 12 [1, 11] [1]
          [(11, IGate.mk .atleast .normal 2 11 [2, 3, 4, 5]
            [2, 3, 4, 5] [] [])] []),
         (10, IGate.mk .atleast .normal 3 10 [2, 3, 4, 5]
           [2, 3, 4, 5] [] [])] []) = false ∧
    IGate.evalFuel (fun n => n == 1 || n == 2) 3
      ((IGate.mk .atleast .normal 3 0 [1, 2, 3, 4, 5]
        [1, 2, 3, 4, 5] [] []).addArg 1 10) = true := by
  refine ⟨?_, rfl, rfl⟩
  have h : (IGate.mk .atleast .normal 3 0 [1, 2, 3, 4, 5]
      [1, 2, 3, 4, 5] [] []).addArg 1 10 =
      IGate.mk .or .normal 3 0 [12, 10] []
        [(12, IGate.mk .and .normal 0 12 [1, 11] [1]
          [(11, IGate.mk .or .normal 1 11 [2, 3, 4, 5]
            [2, 3, 4, 5] [] [])] []),
         (10, IGate.mk .atleast .normal 3 10 [2, 3, 4, 5]
           [2, 3, 4, 5] [] [])] [] := rfl
  rw [h]
  simp

theorem claim_C1_witness :
    (IGate.mk .atleast .normal 3 0 [1, 2, 3, 4, 5]
        [1, 2, 3, 4, 5] [] []).addArg 1 10 =
      IGate.mk .or .normal 3 0 [((10 : Int) + 2), (10 : Int)] []
        [(((10 : Int) + 2), IGate.mk .and .normal 0 12
            [1, ((10 : Int) + 1)] [1]
            [(((10 : Int) + 1), IGate.atleastRetype (.mk .atleast .normal
              1 11 ([1, 2, 3, 4, 5].filter (fun a => a ≠ 1))
              ([1, 2, 3, 4, 5].filter (fun a => a ≠ 1)) [] []))] []),
         ((10 : Int), IGate.atleastRetype (.mk .atleast .normal 3 10
            ([1, 2, 3, 4, 5].filter (fun a => a ≠ 1))
            ([1, 2, 3, 4, 5].filter (fun a => a ≠ 1)) [] []))] [] ∧
    (∀ f : Nat → Bool,
      IGate.evalFuel f 3
        ((IGate.mk .atleast .normal 3 0 [1, 2, 3, 4, 5]
          [1, 2, 3, 4, 5] [] []).addArg 1 10) =
      decide (3 ≤ (if evalLit f 1 then 2 else 0) +
        ([1, 2, 3, 4, 5].filter (fun a => a ≠ 1)).countP
          (fun i => evalLit f i))) :=
  claim_C1_amended 3 0 10 [1, 2, 3, 4, 5] 1 (by decide) (by decide)
    (by decide) (by decide)

end scram
